import Mathlib

/-!
Verification of the packed-state engines of the shuttlings-cch24 server.

The bucket engine is embedded from src/src/day_9.rs and the board engine
from src/src/day_12.rs.  Machine integers (u8, u64) are modelled as Nat
with explicit reductions modulo 2 ^ 8 and 2 ^ 64 at the points where the
Rust types truncate or wrap; fallible operations (a failing CAS closure,
the unreachable branch of Board::decode) are modelled with Option.
-/

namespace CCH24

/-! ### Day 9: bucket engine (src/src/day_9.rs) -/

/-- Embedding of `encode_state` (day_9.rs:14-21): byte 0 of the little-endian
u64 holds `bucket_size`, bytes 1..7 hold bytes 1..7 of `timestamp_ms`. -/
def encode_state (bucket_size timestamp_ms : Nat) : Nat :=
  256 * (timestamp_ms % 2 ^ 64 / 256) + bucket_size % 256

/-- Embedding of `decode_state` (day_9.rs:23-31): byte 0 is the bucket size,
zeroing byte 0 yields the timestamp. -/
def decode_state (state : Nat) : Nat × Nat :=
  (state % 256, state % 2 ^ 64 - state % 256)

def MAX_BUCKET_SIZE : Nat := 5
def REFILL_TIME_MS : Nat := 1000
def SINGLE_WITHDRAWAL_MILK : Nat := 1

/-- Wrapping u64 subtraction: the Rust expression `now - old_ts` on u64
wraps modulo 2 ^ 64 when the right operand exceeds the left. -/
def subU64 (a b : Nat) : Nat := (a % 2 ^ 64 + 2 ^ 64 - b % 2 ^ 64) % 2 ^ 64

/-- Embedding of the closure passed to `BUCKET_STATE.fetch_update` in `milk`
(day_9.rs:53-75).  The Rust code reads the clock inside the closure, so the
observed `now` is an argument of each invocation.  The u8 addition
`old_size + delta_to_refill` is reduced modulo 256. -/
def milkTransition (old_state now : Nat) : Option Nat :=
  let old_size := (decode_state old_state).1
  let old_ts := (decode_state old_state).2
  let duration_since_last := subU64 now old_ts
  let delta_to_refill := min (duration_since_last / REFILL_TIME_MS) MAX_BUCKET_SIZE
  if old_size = 0 ∧ delta_to_refill = 0 then none
  else
    some (encode_state
      (min ((old_size + delta_to_refill) % 256) MAX_BUCKET_SIZE - SINGLE_WITHDRAWAL_MILK)
      now)

/-- Embedding of `refill` (day_9.rs:108-116): the new word stores the full
bucket stamped with the current time. -/
def refill_state (now : Nat) : Nat := encode_state MAX_BUCKET_SIZE now

/-- Response classes of the `milk` handler (day_9.rs:47-106). -/
inductive MilkResp
  | milkWithdrawn
  | noMilk
  | badRequest
  | converted
deriving DecidableEq

/-- Embedding of the `milk` handler (day_9.rs:47-106) for a single request
with no CAS contention.  `isJson` is the Content-Type test of lines 81-88,
`parsed` is the result of the serde parse of the body (line 92), abstracted
to presence, since only the failure branch is verified here.  The handler
first runs the withdraw transition, and only then inspects the body. -/
def milkHandler (isJson : Bool) (parsed : Option Unit) (w now : Nat) : MilkResp × Nat :=
  match milkTransition w now with
  | none => (.noMilk, w)
  | some w' =>
    if isJson = false then (.milkWithdrawn, w')
    else
      match parsed with
      | none => (.badRequest, w')
      | some _ => (.converted, w')

/-- Withdraw and refill events, each carrying the clock value the handler
observes while executing. -/
inductive BucketOp
  | withdraw (now : Nat)
  | refill (now : Nat)

def opNow : BucketOp → Nat
  | .withdraw n => n
  | .refill n => n

/-- Effect of one request on the stored word: a failing withdraw leaves the
word unchanged (`fetch_update` does not store when the closure yields none),
a refill unconditionally swaps in the full bucket. -/
def applyOp (w : Nat) : BucketOp → Nat
  | .withdraw n => (milkTransition w n).getD w
  | .refill n => refill_state n

/-- Sequence of stored words produced by a run of requests. -/
def bucketTrace (w : Nat) : List BucketOp → List Nat
  | [] => [w]
  | op :: ops => w :: bucketTrace (applyOp w op) ops

/-! ### Day 12: board engine (src/src/day_12.rs) -/

/-- Cell values of the 4x4 board (day_12.rs:9-15); the numeric value is the
Rust discriminant used by the packed encoding. -/
inductive Tile
  | Empty
  | Cookie
  | Milk
deriving DecidableEq

/-- Discriminant of a tile, the value of the Rust cast `tile as u64`. -/
def Tile.val : Tile → Nat
  | .Empty => 0
  | .Cookie => 1
  | .Milk => 2

/-- Mapping of one 2-bit field to a tile in `Board::decode`
(day_12.rs:32-37); the Rust `unreachable!()` arm for the value 3 is the
`none` case. -/
def decodeTile (v : Nat) : Option Tile :=
  match v with
  | 0 => some .Empty
  | 1 => some .Cookie
  | 2 => some .Milk
  | _ => none

/-- The decoding loop of `Board::decode` (day_12.rs:28-40), reading `k`
2-bit fields of `state` starting at cell index `i`; a hit on the
unreachable arm aborts the whole decode. -/
def decodeFrom (state i : Nat) : Nat → Option (List Tile)
  | 0 => some []
  | k + 1 =>
    match decodeTile ((state >>> (2 * i)) &&& 3) with
    | none => none
    | some t =>
      match decodeFrom state (i + 1) k with
      | none => none
      | some ts => some (t :: ts)

/-- Embedding of `Board::decode` (day_12.rs:28-40): 16 cells, row-major,
cell i in bits [2i, 2i+1]. -/
def Board.decode (state : Nat) : Option (List Tile) := decodeFrom state 0 16

/-- Embedding of `Board::encode` (day_12.rs:42-48). -/
def Board.encode (b : List Tile) : Nat :=
  b.enum.foldl (fun state p => state ||| Tile.val p.2 <<< (2 * p.1)) 0

/-- Embedding of `Board::get_col` (day_12.rs:149-157); out-of-range
indexing cannot occur for the column indices the handlers pass. -/
def get_col (b : List Tile) (col : Nat) : List Tile :=
  [b.getD col Tile.Empty, b.getD (col + 4) Tile.Empty,
   b.getD (col + 8) Tile.Empty, b.getD (col + 12) Tile.Empty]

/-- One row slice `self.0[start..start + 4]` of `check_for_winner`
(day_12.rs:114-120). -/
def get_row (b : List Tile) (r : Nat) : List Tile :=
  [b.getD (r * 4) Tile.Empty, b.getD (r * 4 + 1) Tile.Empty,
   b.getD (r * 4 + 2) Tile.Empty, b.getD (r * 4 + 3) Tile.Empty]

/-- Main diagonal (day_12.rs:131). -/
def diag1 (b : List Tile) : List Tile :=
  [b.getD 0 Tile.Empty, b.getD 5 Tile.Empty, b.getD 10 Tile.Empty, b.getD 15 Tile.Empty]

/-- Anti diagonal (day_12.rs:136). -/
def diag2 (b : List Tile) : List Tile :=
  [b.getD 3 Tile.Empty, b.getD 6 Tile.Empty, b.getD 9 Tile.Empty, b.getD 12 Tile.Empty]

/-- Embedding of the `is_winning_line` closure (day_12.rs:110-111). -/
def is_winning_line (line : List Tile) : Bool :=
  decide (line.getD 0 Tile.Empty ≠ Tile.Empty) &&
    line.all fun t => decide (t = line.getD 0 Tile.Empty)

/-- Embedding of `Board::check_for_winner` (day_12.rs:108-147): rows, then
columns, then the two diagonals, then the full-board draw check.
`Except.error ()` is the draw result, `Except.ok (some w)` a win for `w`,
`Except.ok none` a game still in progress. -/
def check_for_winner (b : List Tile) : Except Unit (Option Tile) :=
  if is_winning_line (get_row b 0) = true then .ok (some ((get_row b 0).getD 0 Tile.Empty))
  else if is_winning_line (get_row b 1) = true then .ok (some ((get_row b 1).getD 0 Tile.Empty))
  else if is_winning_line (get_row b 2) = true then .ok (some ((get_row b 2).getD 0 Tile.Empty))
  else if is_winning_line (get_row b 3) = true then .ok (some ((get_row b 3).getD 0 Tile.Empty))
  else if is_winning_line (get_col b 0) = true then .ok (some ((get_col b 0).getD 0 Tile.Empty))
  else if is_winning_line (get_col b 1) = true then .ok (some ((get_col b 1).getD 0 Tile.Empty))
  else if is_winning_line (get_col b 2) = true then .ok (some ((get_col b 2).getD 0 Tile.Empty))
  else if is_winning_line (get_col b 3) = true then .ok (some ((get_col b 3).getD 0 Tile.Empty))
  else if is_winning_line (diag1 b) = true then .ok (some ((diag1 b).getD 0 Tile.Empty))
  else if is_winning_line (diag2 b) = true then .ok (some ((diag2 b).getD 0 Tile.Empty))
  else if ¬ Tile.Empty ∈ b then .error ()
  else .ok none

/-- Embedding of `Board::push_item` (day_12.rs:159-169): scan the column
from the bottom (reversed enumeration) for the first Empty cell and write
`item` there. -/
def push_item (b : List Tile) (col_idx : Nat) (item : Tile) : Option (List Tile) :=
  match (get_col b col_idx).enum.reverse.find? (fun p => decide (p.2 = Tile.Empty)) with
  | none => none
  | some p => some (b.set (col_idx + p.1 * 4) item)

/-- Team-token parse of `place` (day_12.rs:200-204). -/
def parseTeam (team : String) : Option Tile :=
  match team with
  | "cookie" => some Tile.Cookie
  | "milk" => some Tile.Milk
  | _ => none

/-- Response classes of the `place` handler; the render payload is tracked
only as presence (okRender and unavailableRender carry the rendered board,
unavailableNoBody and badRequest have no body). -/
inductive PlaceResp
  | badRequest
  | okRender
  | unavailableRender
  | unavailableNoBody
deriving DecidableEq

/-- Embedding of the `place` handler (day_12.rs:199-253) for one request
with no concurrent writer, paired with the stored word after the request.
`column` is the result of the Rust `column.parse::<usize>()`.  A `none`
result models the `unreachable!()` panic of decoding a corrupt word.  On a
successful CAS, `fetch_update` returns the PREVIOUS word, and the handler
re-decodes and re-checks that previous board (day_12.rs:238-248). -/
def place (team : String) (column : Option Nat) (w : Nat) : Option (PlaceResp × Nat) :=
  match parseTeam team with
  | none => some (.badRequest, w)
  | some teamTile =>
    match column with
    | none => some (.badRequest, w)
    | some c0 =>
      if c0 < 1 then some (.badRequest, w)
      else if 4 ≤ c0 - 1 then some (.badRequest, w)
      else
        match Board.decode w with
        | none => none
        | some b =>
          if (match check_for_winner b with
              | .error _ => true
              | .ok x => x.isSome) = true then
            some (.unavailableRender, w)
          else
            match push_item b (c0 - 1) teamTile with
            | none => some (.unavailableNoBody, w)
            | some nb =>
              match check_for_winner b with
              | .ok _ => some (.okRender, Board.encode nb)
              | .error _ => some (.unavailableRender, Board.encode nb)


/-- Base-4 value of a tile list, cell 0 in the least significant digit;
the arithmetic reading of the packed board encoding. -/
def tilesVal : List Tile → Nat
  | [] => 0
  | t :: ts => t.val + 4 * tilesVal ts

/-- The ten lines examined by `check_for_winner`, in source order. -/
def allLines (b : List Tile) : List (List Tile) :=
  [get_row b 0, get_row b 1, get_row b 2, get_row b 3,
   get_col b 0, get_col b 1, get_col b 2, get_col b 3, diag1 b, diag2 b]

lemma decode_encode_state (l t : Nat) :
    decode_state (encode_state l t) = (l % 256, 256 * (t % 2 ^ 64 / 256)) := by
  simp only [decode_state, encode_state, Prod.mk.injEq]
  omega

lemma encode_state_lt (l t : Nat) : encode_state l t < 2 ^ 64 := by
  simp only [encode_state]
  omega

lemma milkTransition_some {w n w' : Nat} (h : milkTransition w n = some w') :
    ∃ l, l ≤ 5 ∧ w' = encode_state l n := by
  simp only [milkTransition, MAX_BUCKET_SIZE, SINGLE_WITHDRAWAL_MILK, REFILL_TIME_MS] at h
  split at h
  · exact absurd h (by simp)
  · refine ⟨_, ?_, (Option.some.injEq _ _ ▸ h).symm⟩
    have := Nat.min_le_right (((decode_state w).1 + min (subU64 n (decode_state w).2 / 1000) 5) % 256) 5
    omega

/-- C8: the bucket encoding stores the counter in byte 0 and the timestamp,
with its low byte cleared, in bytes 1..7, so decoding an encoded state
returns the level exactly and the timestamp rounded down to a multiple of
256; states whose timestamp is a multiple of 256 round-trip exactly. -/
theorem bucket_encoding_layout (l t : Nat) (hl : l < 256) (ht : t < 2 ^ 64) :
    decode_state (encode_state l t) = (l, 256 * (t / 256)) ∧
    encode_state l t % 256 = l ∧
    encode_state l t / 256 = t / 256 ∧
    (t % 256 = 0 → decode_state (encode_state l t) = (l, t)) := by
  refine ⟨?_, ?_, ?_, ?_⟩ <;>
    simp only [decode_state, encode_state, Prod.mk.injEq] <;> omega

theorem bucket_encoding_layout_witness :
    decode_state (encode_state 5 1000) = (5, 768) :=
  (bucket_encoding_layout 5 1000 (by decide) (by decide)).1

/-- C10: the elapsed-time computation of the withdraw transition is the
unguarded u64 subtraction of the stored timestamp from `now`.  It equals
the true elapsed time exactly when `now` is at least the stored timestamp;
when the clock reads earlier than the stored timestamp the subtraction
wraps around 2 ^ 64. -/
theorem milk_elapsed_subtraction (s now : Nat) (hs : s < 2 ^ 64) (hn : now < 2 ^ 64) :
    ((decode_state s).2 ≤ now →
      subU64 now (decode_state s).2 = now - (decode_state s).2) ∧
    (now < (decode_state s).2 →
      (subU64 now (decode_state s).2 : Int) =
        (now : Int) - ((decode_state s).2 : Int) + 2 ^ 64) := by
  constructor <;> intro h <;> simp only [decode_state, subU64] at * <;> omega

theorem milk_elapsed_subtraction_witness :
    (subU64 4000 (decode_state (encode_state 5 5120)).2 : Int) = 4000 - 5120 + 2 ^ 64 := by
  have h2 : (decode_state (encode_state 5 5120)).2 = 5120 := by decide
  have h := (milk_elapsed_subtraction (encode_state 5 5120) 4000
    (encode_state_lt 5 5120) (by decide)).2 (by rw [h2]; decide)
  rw [h2] at h ⊢
  rw [h]
  norm_num

/-- C3 counterexample: the clock is read inside the CAS closure, once per
invocation, so two retries against the same old word can disagree when the
clock has advanced between them; at old word 0 an invocation observing
now = 500 fails while one observing now = 1000 succeeds. -/
theorem milk_now_per_retry_cex :
    milkTransition 0 500 ≠ milkTransition 0 1000 ∧
    milkTransition 0 500 = none ∧ (milkTransition 0 1000).isSome = true := by
  refine ⟨by decide, by decide, by decide⟩

/-- C3 (amended): the transition closure is a pure function of the old
packed word and the `now` it observes in that invocation, and every
successful invocation stamps its own observed `now` into the new word;
since `now` is re-read on every CAS retry, retries with the same old word
agree only when they observe the same clock value. -/
theorem milk_transition_stamps_observed_now (w n w' : Nat)
    (h : milkTransition w n = some w') :
    w' = encode_state ((decode_state w').1) n ∧ w' < 2 ^ 64 := by
  obtain ⟨l, hl, rfl⟩ := milkTransition_some h
  refine ⟨?_, encode_state_lt l n⟩
  rw [decode_encode_state]
  simp only [encode_state]
  omega

theorem milk_transition_stamps_observed_now_witness :
    encode_state 0 1000 = encode_state ((decode_state (encode_state 0 1000)).1) 1000 :=
  (milk_transition_stamps_observed_now 0 1000 (encode_state 0 1000) (by decide)).1

/-- C9 counterexample: an unparseable JSON body does not leave the bucket
word unchanged, and does not always yield 400.  With a full bucket the
handler answers 400 only after the withdraw transition has replaced the
stored word, and with an empty bucket the same request yields 429. -/
theorem milk_validation_after_state_cex :
    (milkHandler true none (encode_state 5 0) 0).1 = .badRequest ∧
    (milkHandler true none (encode_state 5 0)  0).2 ≠ encode_state 5 0 ∧
    (milkHandler true none 0 0).1 = .noMilk := by
  refine ⟨by decide, by decide, by decide⟩

/-- C9 (amended): the handler runs the withdraw transition before looking at
the body.  If the transition fails the response is 429 whatever the body;
otherwise the stored word is already updated, and only then does a JSON
request with an unparseable body receive 400, while a request without the
JSON content type receives the plain 200 response. -/
theorem milk_handler_body_after_state (isJson : Bool) (parsed : Option Unit) (w now : Nat) :
    (milkTransition w now = none → milkHandler isJson parsed w now = (.noMilk, w)) ∧
    (∀ w', milkTransition w now = some w' →
      milkHandler isJson parsed w now =
        ((if isJson = false then .milkWithdrawn
          else if parsed = none then MilkResp.badRequest else .converted), w')) := by
  constructor
  · intro h
    simp [milkHandler, h]
  · intro w' h
    simp only [milkHandler, h]
    cases isJson <;> cases parsed <;> simp

theorem milk_handler_body_after_state_witness :
    milkHandler true none 0 0 = (.noMilk, 0) :=
  (milk_handler_body_after_state true none 0 0).1 (by decide)

/-- C1: for a stored state with level at most 5 and timestamp at most `now`,
the withdraw transition refills by the capped elapsed seconds, fails exactly
when the level and the refill are both zero, and otherwise stores the capped
refilled level minus one, stamped with `now`; in particular from the initial
word 0 a withdrawal at 500 ms fails, one at 1000 ms leaves level 0 and one
at 5000 ms leaves level 4. -/
theorem milk_withdraw_spec (s now : Nat) (hs : s < 2 ^ 64) (hn : now < 2 ^ 64)
    (hL : (decode_state s).1 ≤ 5) (hT : (decode_state s).2 ≤ now) :
    (milkTransition s now = none ↔
      (decode_state s).1 = 0 ∧ min ((now - (decode_state s).2) / 1000) 5 = 0) ∧
    (¬ ((decode_state s).1 = 0 ∧ min ((now - (decode_state s).2) / 1000) 5 = 0) →
      milkTransition s now =
        some (encode_state
          (min ((decode_state s).1 + min ((now - (decode_state s).2) / 1000) 5) 5 - 1)
          now)) ∧
    milkTransition 0 500 = none ∧
    (milkTransition 0 1000).map (fun w => (decode_state w).1) = some 0 ∧
    (milkTransition 0 5000).map (fun w => (decode_state w).1) = some 4 := by
  have hts : (decode_state s).2 < 2 ^ 64 := by omega
  have hsub : subU64 now (decode_state s).2 = now - (decode_state s).2 := by
    simp only [decode_state, subU64] at *
    omega
  have hmod : ((decode_state s).1 + min ((now - (decode_state s).2) / 1000) 5) % 256
      = (decode_state s).1 + min ((now - (decode_state s).2) / 1000) 5 := by
    have := Nat.min_le_right ((now - (decode_state s).2) / 1000) 5
    omega
  refine ⟨?_, ?_, by decide, by decide, by decide⟩
  · simp only [milkTransition, MAX_BUCKET_SIZE, SINGLE_WITHDRAWAL_MILK, REFILL_TIME_MS,
      hsub, hmod]
    split
    · exact iff_of_true rfl ‹_›
    · exact iff_of_false (by simp) ‹_›
  · intro hc
    simp only [milkTransition, MAX_BUCKET_SIZE, SINGLE_WITHDRAWAL_MILK, REFILL_TIME_MS,
      hsub, hmod]
    split
    · exact absurd ‹_› hc
    · rfl

theorem milk_withdraw_spec_witness :
    milkTransition 0 1000 = some (encode_state 0 1000) := by
  have h := ((milk_withdraw_spec 0 1000 (by decide) (by decide) (by decide)
    (by decide)).2.1) (by decide)
  simpa using h

lemma chain_le_of_le {a a' : Nat} {l : List Nat} (h : a' ≤ a)
    (hc : List.Chain (fun x y => x ≤ y) a l) : List.Chain (fun x y => x ≤ y) a' l := by
  cases l with
  | nil => exact List.Chain.nil
  | cons b t =>
    rcases List.chain_cons.mp hc with ⟨hab, ht⟩
    exact List.chain_cons.mpr ⟨le_trans h hab, ht⟩

lemma chain_zero_of_chain' (l : List Nat) (h : l.Chain' (fun a b => a ≤ b)) :
    List.Chain (fun a b => a ≤ b) 0 l := by
  cases l with
  | nil => exact List.Chain.nil
  | cons a t => exact List.chain_cons.mpr ⟨Nat.zero_le a, h⟩

lemma bucketTrace_head (w : Nat) (ops : List BucketOp) (d : Nat) :
    (bucketTrace w ops).getD 0 d = w := by
  cases ops <;> rfl

lemma bucketTrace_headOpt (w : Nat) (ops : List BucketOp) :
    (bucketTrace w ops).head? = some w := by
  cases ops <;> rfl

lemma applyOp_step (w : Nat) (op : BucketOp) (hw : w < 2 ^ 64)
    (hl : (decode_state w).1 ≤ 5) (hn : (decode_state w).2 ≤ opNow op)
    (hb : opNow op < 2 ^ 64) :
    applyOp w op < 2 ^ 64 ∧ (decode_state (applyOp w op)).1 ≤ 5 ∧
    (decode_state w).2 ≤ (decode_state (applyOp w op)).2 ∧
    (applyOp w op = w ∨
      ∃ l, l ≤ 5 ∧ applyOp w op = encode_state l (opNow op)) := by
  have hts : (decode_state w).2 % 256 = 0 := by
    simp only [decode_state]; omega
  cases op with
  | refill n =>
    simp only [applyOp, refill_state, MAX_BUCKET_SIZE, opNow] at *
    rw [decode_encode_state]
    exact ⟨encode_state_lt _ _, by omega, by omega, Or.inr ⟨5, le_refl 5, rfl⟩⟩
  | withdraw n =>
    simp only [applyOp, opNow] at *
    cases h : milkTransition w n with
    | none =>
      simp only [Option.getD_none]
      exact ⟨hw, hl, le_refl _, Or.inl (by simp)⟩
    | some w' =>
      obtain ⟨l, hl5, rfl⟩ := milkTransition_some h
      simp only [Option.getD_some]
      rw [decode_encode_state]
      exact ⟨encode_state_lt _ _, by omega, by omega, Or.inr ⟨l, hl5, rfl⟩⟩

lemma bucket_trace_inv (ops : List BucketOp) :
    ∀ w : Nat, w < 2 ^ 64 → (decode_state w).1 ≤ 5 →
    List.Chain (fun a b => a ≤ b) ((decode_state w).2) (ops.map opNow) →
    (∀ n ∈ ops.map opNow, n < 2 ^ 64) →
    (∀ v ∈ bucketTrace w ops, (decode_state v).1 ≤ 5) ∧
    (bucketTrace w ops).Chain' (fun a b => (decode_state a).2 ≤ (decode_state b).2) ∧
    (∀ i, i < ops.length →
      (bucketTrace w ops).getD (i + 1) 0 = (bucketTrace w ops).getD i 0 ∨
      ∃ l, l ≤ 5 ∧ (bucketTrace w ops).getD (i + 1) 0 =
        encode_state l (opNow (ops.getD i (BucketOp.refill 0)))) := by
  induction ops with
  | nil =>
    intro w _ hl _ _
    refine ⟨?_, by simp [bucketTrace], ?_⟩
    · intro v hv
      simp only [bucketTrace, List.mem_singleton] at hv
      exact hv ▸ hl
    · intro i hi
      simp at hi
  | cons op ops ih =>
    intro w hw hl hchain hbound
    rw [List.map_cons, List.chain_cons] at hchain
    obtain ⟨hwn, hrest⟩ := hchain
    have hb0 : opNow op < 2 ^ 64 := hbound _ (by simp)
    have hstep := applyOp_step w op hw hl hwn hb0
    have hts'le : (decode_state (applyOp w op)).2 ≤ opNow op := by
      rcases hstep.2.2.2 with h | ⟨l, _, h⟩
      · rw [h]; exact hwn
      · rw [h, decode_encode_state]; omega
    have IH := ih (applyOp w op) hstep.1 hstep.2.1
      (chain_le_of_le hts'le hrest)
      (fun n hn => hbound n (by simp [hn]))
    refine ⟨?_, ?_, ?_⟩
    · intro v hv
      simp only [bucketTrace, List.mem_cons] at hv
      rcases hv with rfl | hv
      · exact hl
      · exact IH.1 v hv
    · show (w :: bucketTrace (applyOp w op) ops).Chain' _
      rw [List.chain'_cons']
      refine ⟨?_, IH.2.1⟩
      intro b hb
      rw [bucketTrace_headOpt] at hb
      cases hb
      exact hstep.2.2.1
    · intro i hi
      cases i with
      | zero =>
        simp only [bucketTrace, List.getD_cons_succ, List.getD_cons_zero,
          bucketTrace_head]
        exact hstep.2.2.2
      | succ i =>
        simp only [bucketTrace, List.getD_cons_succ]
        simp only [List.length_cons] at hi
        exact IH.2.2 i (by omega)

/-- C4: starting from the initial word 0, any sequence of withdraw and
refill requests whose observed clock values are non-decreasing keeps the
decoded level in 0..5, keeps the stored timestamp non-decreasing along the
trace, and every step either leaves the word unchanged (a rejected
withdrawal) or stores a word stamped from the clock value of that step. -/
theorem bucket_invariants (ops : List BucketOp)
    (hmono : (ops.map opNow).Chain' (fun a b => a ≤ b))
    (hbound : ∀ n ∈ ops.map opNow, n < 2 ^ 64) :
    (∀ v ∈ bucketTrace 0 ops, (decode_state v).1 ≤ 5) ∧
    (bucketTrace 0 ops).Chain' (fun a b => (decode_state a).2 ≤ (decode_state b).2) ∧
    (∀ i, i < ops.length →
      (bucketTrace 0 ops).getD (i + 1) 0 = (bucketTrace 0 ops).getD i 0 ∨
      ∃ l, l ≤ 5 ∧ (bucketTrace 0 ops).getD (i + 1) 0 =
        encode_state l (opNow (ops.getD i (BucketOp.refill 0)))) := by
  apply bucket_trace_inv ops 0 (by decide) (by decide) ?_ hbound
  have h0 : (decode_state 0).2 = 0 := by decide
  rw [h0]
  exact chain_zero_of_chain' _ hmono

theorem bucket_invariants_witness :
    (decode_state ((bucketTrace 0
      [BucketOp.withdraw 1500, BucketOp.refill 2000, BucketOp.withdraw 2100]).getD 3 0)).1
      ≤ 5 :=
  (bucket_invariants
    [BucketOp.withdraw 1500, BucketOp.refill 2000, BucketOp.withdraw 2100]
    (by simp [opNow]) (by decide)).1 _ (by decide)

lemma and_three (x : Nat) : x &&& 3 = x % 4 := by
  have h := Nat.and_pow_two_sub_one_eq_mod x 2
  norm_num at h
  exact h

lemma shiftRight_two_mul (x i : Nat) : x >>> (2 * i) = x / 4 ^ i := by
  rw [Nat.shiftRight_eq_div_pow, Nat.pow_mul]

lemma tile_val_le (t : Tile) : t.val ≤ 2 := by
  cases t <;> simp [Tile.val]

lemma decodeTile_val (t : Tile) : decodeTile t.val = some t := by
  cases t <;> rfl

lemma decodeTile_val_of_lt {v : Nat} (hv : v < 4) {t : Tile}
    (h : decodeTile v = some t) : Tile.val t = v := by
  interval_cases v
  · simp [decodeTile] at h; subst h; rfl
  · simp [decodeTile] at h; subst h; rfl
  · simp [decodeTile] at h; subst h; rfl
  · simp [decodeTile] at h

lemma decodeTile_isSome_of_le {v : Nat} (hv : v ≤ 2) :
    ∃ t, decodeTile v = some t ∧ Tile.val t = v := by
  interval_cases v <;> exact ⟨_, rfl, rfl⟩

lemma tilesVal_lt (b : List Tile) : tilesVal b < 4 ^ b.length := by
  induction b with
  | nil => simp [tilesVal]
  | cons t ts ih =>
    simp only [tilesVal, List.length_cons]
    have h1 := tile_val_le t
    have h2 : (4:Nat) ^ (ts.length + 1) = 4 ^ ts.length * 4 := pow_succ 4 _
    omega

lemma lor_mul_pow_eq_add : ∀ (k a b : Nat), a < 2 ^ k → a ||| b * 2 ^ k = a + b * 2 ^ k := by
  intro k
  induction k with
  | zero =>
    intro a b ha
    have ha0 : a = 0 := by omega
    subst ha0
    simp
  | succ k ih =>
    intro a b ha
    rw [pow_succ] at *
    rw [show b * (2 ^ k * 2) = b * 2 ^ k * 2 by ring]
    set c := b * 2 ^ k with hc
    have hceven : c * 2 % 2 = 0 := Nat.mul_mod_left c 2
    have hc2 : c * 2 / 2 = c := by omega
    have hdiv : (a ||| c * 2) / 2 = (a / 2) ||| c := by
      rw [Nat.or_div_two, hc2]
    have hmod : (a ||| c * 2) % 2 = a % 2 := by
      have hiff := @Nat.or_mod_two_eq_one a (c * 2)
      rcases Nat.mod_two_eq_zero_or_one (a ||| c * 2) with hx | hx <;>
        rcases Nat.mod_two_eq_zero_or_one a with hy | hy
      · omega
      · exact absurd (hiff.mpr (Or.inl hy)) (by omega)
      · rcases hiff.mp hx with h1 | h1 <;> omega
      · omega
    have ihh := ih (a / 2) b (by omega)
    rw [← hc] at ihh
    have hsplit := Nat.div_add_mod (a ||| c * 2) 2
    rw [hdiv, ihh, hmod] at hsplit
    omega

lemma encode_foldl (b : List Tile) :
    ∀ k st : Nat, st < 4 ^ k →
      (b.enumFrom k).foldl (fun state p => state ||| Tile.val p.2 <<< (2 * p.1)) st
        = st + 4 ^ k * tilesVal b := by
  induction b with
  | nil =>
    intro k st _
    simp [tilesVal]
  | cons t ts ih =>
    intro k st hst
    rw [List.enumFrom_cons, List.foldl_cons]
    have hpow : (2:Nat) ^ (2 * k) = 4 ^ k := by
      rw [Nat.pow_mul]
    have hor : st ||| Tile.val t <<< (2 * k) = st + Tile.val t * 4 ^ k := by
      rw [Nat.shiftLeft_eq]
      rw [lor_mul_pow_eq_add (2 * k) st (Tile.val t) (by rw [hpow]; exact hst)]
      rw [hpow]
    rw [hor]
    have hvt : Tile.val t * 4 ^ k ≤ 2 * 4 ^ k :=
      Nat.mul_le_mul_right _ (tile_val_le t)
    have hst' : st + Tile.val t * 4 ^ k < 4 ^ (k + 1) := by
      have h4 : (4:Nat) ^ (k + 1) = 4 ^ k * 4 := pow_succ 4 k
      omega
    rw [ih (k + 1) (st + Tile.val t * 4 ^ k) hst']
    simp only [tilesVal]
    ring

lemma board_encode_eq (b : List Tile) : Board.encode b = tilesVal b := by
  have h := encode_foldl b 0 0 (by norm_num)
  simpa [Board.encode, List.enum_eq_enumFrom] using h

lemma tilesVal_digit (b : List Tile) :
    ∀ i, i < b.length → (tilesVal b >>> (2 * i)) &&& 3 = (b.getD i Tile.Empty).val := by
  induction b with
  | nil =>
    intro i h
    simp at h
  | cons t ts ih =>
    intro i hi
    cases i with
    | zero =>
      rw [Nat.mul_zero, Nat.shiftRight_zero, and_three]
      simp only [tilesVal, List.getD_cons_zero]
      have := tile_val_le t
      omega
    | succ i =>
      have hdiv : tilesVal (t :: ts) / 4 ^ (i + 1) = tilesVal ts / 4 ^ i := by
        simp only [tilesVal]
        rw [pow_succ', ← Nat.div_div_eq_div_mul]
        congr 1
        have := tile_val_le t
        omega
      rw [List.getD_cons_succ, shiftRight_two_mul, and_three, hdiv,
        ← and_three, ← shiftRight_two_mul]
      exact ih i (by simpa using hi)

lemma decodeFrom_eq_some : ∀ (k state i : Nat) (l : List Tile), l.length = k →
    (∀ j, j < k → decodeTile ((state >>> (2 * (i + j))) &&& 3) = some (l.getD j Tile.Empty)) →
    decodeFrom state i k = some l := by
  intro k
  induction k with
  | zero =>
    intro state i l hl _
    cases l with
    | nil => rfl
    | cons a l => simp at hl
  | succ k ih =>
    intro state i l hl hall
    cases l with
    | nil => simp at hl
    | cons t ts =>
      have h0 := hall 0 (by omega)
      rw [Nat.add_zero] at h0
      simp only [List.getD_cons_zero] at h0
      have hrec := ih state (i + 1) ts (by simpa using hl) (fun j hj => by
        have hthis := hall (j + 1) (by omega)
        simp only [List.getD_cons_succ] at hthis
        rw [show i + (j + 1) = (i + 1) + j by omega] at hthis
        exact hthis)
      simp [decodeFrom, h0, hrec]

lemma decodeFrom_isSome : ∀ (k state i : Nat),
    (∀ j, j < k → (state >>> (2 * (i + j))) &&& 3 ≤ 2) →
    ∃ l, decodeFrom state i k = some l ∧ l.length = k := by
  intro k
  induction k with
  | zero =>
    intro state i _
    exact ⟨[], rfl, rfl⟩
  | succ k ih =>
    intro state i hall
    have h0 : (state >>> (2 * i)) &&& 3 ≤ 2 := by
      have := hall 0 (by omega)
      rwa [Nat.add_zero] at this
    obtain ⟨t, ht, _⟩ := decodeTile_isSome_of_le h0
    obtain ⟨ts, hts, hlen⟩ := ih state (i + 1) (fun j hj => by
      have hthis := hall (j + 1) (by omega)
      rwa [show i + (j + 1) = (i + 1) + j by omega] at hthis)
    exact ⟨t :: ts, by simp [decodeFrom, ht, hts], by simp [hlen]⟩

lemma mod4_decomp (a M : Nat) (hM : 0 < M) : a % (4 * M) = a % 4 + 4 * (a / 4 % M) := by
  obtain ⟨q2, r2, hr2, h2, hr2eq⟩ :
      ∃ q2 r2, r2 < M ∧ a / 4 = M * q2 + r2 ∧ a / 4 % M = r2 :=
    ⟨a / 4 / M, a / 4 % M, Nat.mod_lt _ hM, (Nat.div_add_mod (a / 4) M).symm, rfl⟩
  have hmain : a % (4 * M) = a % 4 + 4 * r2 := by
    calc a % (4 * M)
        = (4 * (a / 4) + a % 4) % (4 * M) := by rw [Nat.div_add_mod]
      _ = ((a % 4 + 4 * r2) + (4 * M) * q2) % (4 * M) := by rw [h2]; ring_nf
      _ = (a % 4 + 4 * r2) % (4 * M) := Nat.add_mul_mod_self_left _ _ _
      _ = a % 4 + 4 * r2 := Nat.mod_eq_of_lt (by
          have hx : a % 4 < 4 := Nat.mod_lt _ (by norm_num)
          omega)
  rw [hr2eq]
  exact hmain

lemma decodeFrom_tilesVal : ∀ (k state i : Nat) (l : List Tile),
    decodeFrom state i k = some l → tilesVal l = (state >>> (2 * i)) % 4 ^ k := by
  intro k
  induction k with
  | zero =>
    intro state i l h
    simp only [decodeFrom] at h
    cases h
    simp [tilesVal, Nat.mod_one]
  | succ k ih =>
    intro state i l h
    simp only [decodeFrom] at h
    cases ht : decodeTile ((state >>> (2 * i)) &&& 3) with
    | none => rw [ht] at h; simp at h
    | some t =>
      rw [ht] at h
      cases hrec : decodeFrom state (i + 1) k with
      | none => rw [hrec] at h; simp at h
      | some ts =>
        rw [hrec] at h
        simp only [Option.some.injEq] at h
        subst h
        have hval : Tile.val t = (state >>> (2 * i)) &&& 3 :=
          decodeTile_val_of_lt (by rw [and_three]; exact Nat.mod_lt _ (by norm_num)) ht
        have htv := ih state (i + 1) ts hrec
        simp only [tilesVal]
        rw [hval, and_three, htv, shiftRight_two_mul, shiftRight_two_mul]
        rw [show (4:Nat) ^ (i + 1) = 4 ^ i * 4 from pow_succ 4 i,
          ← Nat.div_div_eq_div_mul]
        rw [show (4:Nat) ^ (k + 1) = 4 * 4 ^ k from pow_succ' 4 k]
        exact (mod4_decomp (state / 4 ^ i) (4 ^ k) (by positivity)).symm

/-- C2: every 16-cell board round-trips through encode and decode, the
encoded word fits in the low 32 bits, and every 32-bit word whose sixteen
2-bit fields avoid the unreachable value 3 is reproduced exactly by
encoding its decoding. -/
theorem board_roundtrip :
    (∀ b : List Tile, b.length = 16 →
      Board.decode (Board.encode b) = some b ∧ Board.encode b < 2 ^ 32) ∧
    (∀ x : Nat, x < 2 ^ 32 → (∀ j, j < 16 → (x >>> (2 * j)) &&& 3 ≤ 2) →
      ∃ b, Board.decode x = some b ∧ Board.encode b = x) := by
  constructor
  · intro b hb
    constructor
    · apply decodeFrom_eq_some 16 _ 0 b hb
      intro j hj
      rw [Nat.zero_add, board_encode_eq, tilesVal_digit b j (by omega)]
      exact decodeTile_val _
    · rw [board_encode_eq]
      have h1 := tilesVal_lt b
      rw [hb] at h1
      have h416 : (4:Nat) ^ 16 = 2 ^ 32 := by norm_num
      omega
  · intro x hx hfields
    obtain ⟨b, hdec, _⟩ := decodeFrom_isSome 16 x 0 (fun j hj => by
      rw [Nat.zero_add]; exact hfields j hj)
    refine ⟨b, hdec, ?_⟩
    rw [board_encode_eq, decodeFrom_tilesVal 16 x 0 b hdec,
      Nat.mul_zero, Nat.shiftRight_zero]
    have h416 : (4:Nat) ^ 16 = 2 ^ 32 := by norm_num
    rw [h416]
    exact Nat.mod_eq_of_lt hx

theorem board_roundtrip_witness :
    Board.decode (Board.encode
      [Tile.Cookie, Tile.Empty, Tile.Empty, Tile.Milk,
       Tile.Empty, Tile.Cookie, Tile.Milk, Tile.Empty,
       Tile.Milk, Tile.Milk, Tile.Cookie, Tile.Empty,
       Tile.Empty, Tile.Empty, Tile.Empty, Tile.Cookie]) = some
      [Tile.Cookie, Tile.Empty, Tile.Empty, Tile.Milk,
       Tile.Empty, Tile.Cookie, Tile.Milk, Tile.Empty,
       Tile.Milk, Tile.Milk, Tile.Cookie, Tile.Empty,
       Tile.Empty, Tile.Empty, Tile.Empty, Tile.Cookie] ∧
    ∃ b, Board.decode 6 = some b ∧ Board.encode b = 6 :=
  ⟨(board_roundtrip.1 _ (by decide)).1, board_roundtrip.2 6 (by decide) (by decide)⟩

lemma push_item_cases (b : List Tile) (col : Nat) (item : Tile) :
    push_item b col item =
      if b.getD (col + 12) Tile.Empty = Tile.Empty then some (b.set (col + 3 * 4) item)
      else if b.getD (col + 8) Tile.Empty = Tile.Empty then some (b.set (col + 2 * 4) item)
      else if b.getD (col + 4) Tile.Empty = Tile.Empty then some (b.set (col + 1 * 4) item)
      else if b.getD col Tile.Empty = Tile.Empty then some (b.set (col + 0 * 4) item)
      else none := by
  by_cases h3 : b.getD (col + 12) Tile.Empty = Tile.Empty <;>
    by_cases h2 : b.getD (col + 8) Tile.Empty = Tile.Empty <;>
      by_cases h1 : b.getD (col + 4) Tile.Empty = Tile.Empty <;>
        by_cases h0 : b.getD col Tile.Empty = Tile.Empty <;>
          (simp only [List.getD_eq_getElem?_getD] at h0 h1 h2 h3 ⊢;
            simp [push_item, get_col, List.enum, List.enumFrom, List.find?, h0, h1, h2, h3])

/-- C6: push places the tile at the bottom-most Empty cell of the column
(the highest row index), leaving every other cell unchanged, and fails on a
full column leaving the board untouched; four pushes into an empty column
fill it bottom to top (rows 3, 2, 1, 0) and a fifth fails. -/
theorem push_item_gravity (b : List Tile) (col : Nat) (item : Tile)
    (hlen : b.length = 16) (hcol : col < 4) :
    ((∀ r, r < 4 → b.getD (col + r * 4) Tile.Empty ≠ Tile.Empty) →
      push_item b col item = none) ∧
    (∀ r, r < 4 → b.getD (col + r * 4) Tile.Empty = Tile.Empty →
      (∀ q, r < q → q < 4 → b.getD (col + q * 4) Tile.Empty ≠ Tile.Empty) →
      push_item b col item = some (b.set (col + r * 4) item)) ∧
    push_item (List.replicate 16 Tile.Empty) 0 Tile.Cookie
      = some ((List.replicate 16 Tile.Empty).set 12 Tile.Cookie) ∧
    push_item ((List.replicate 16 Tile.Empty).set 12 Tile.Cookie) 0 Tile.Cookie
      = some (((List.replicate 16 Tile.Empty).set 12 Tile.Cookie).set 8 Tile.Cookie) ∧
    push_item (((List.replicate 16 Tile.Empty).set 12 Tile.Cookie).set 8 Tile.Cookie)
        0 Tile.Cookie
      = some ((((List.replicate 16 Tile.Empty).set 12 Tile.Cookie).set 8 Tile.Cookie).set
          4 Tile.Cookie) ∧
    push_item ((((List.replicate 16 Tile.Empty).set 12 Tile.Cookie).set 8 Tile.Cookie).set
        4 Tile.Cookie) 0 Tile.Cookie
      = some (((((List.replicate 16 Tile.Empty).set 12 Tile.Cookie).set 8 Tile.Cookie).set
          4 Tile.Cookie).set 0 Tile.Cookie) ∧
    push_item (((((List.replicate 16 Tile.Empty).set 12 Tile.Cookie).set 8 Tile.Cookie).set
        4 Tile.Cookie).set 0 Tile.Cookie) 0 Tile.Cookie = none := by
  refine ⟨?_, ?_, by decide, by decide, by decide, by decide, by decide⟩
  · intro hall
    have h3 := hall 3 (by omega)
    have h2 := hall 2 (by omega)
    have h1 := hall 1 (by omega)
    have h0 := hall 0 (by omega)
    norm_num at h3 h2 h1 h0
    rw [push_item_cases]
    simp [h3, h2, h1, h0]
  · intro r hr hempty hab
    rw [push_item_cases]
    interval_cases r
    · have q1 := hab 1 (by omega) (by omega)
      have q2 := hab 2 (by omega) (by omega)
      have q3 := hab 3 (by omega) (by omega)
      norm_num at hempty q1 q2 q3 ⊢
      simp [hempty, q1, q2, q3]
    · have q2 := hab 2 (by omega) (by omega)
      have q3 := hab 3 (by omega) (by omega)
      norm_num at hempty q2 q3 ⊢
      simp [hempty, q2, q3]
    · have q3 := hab 3 (by omega) (by omega)
      norm_num at hempty q3 ⊢
      simp [hempty, q3]
    · norm_num at hempty ⊢
      simp [hempty]

theorem push_item_gravity_witness :
    push_item (List.replicate 16 Tile.Empty) 2 Tile.Milk
      = some ((List.replicate 16 Tile.Empty).set (2 + 3 * 4) Tile.Milk) :=
  (push_item_gravity (List.replicate 16 Tile.Empty) 2 Tile.Milk (by decide) (by decide)).2.1
    3 (by decide) (by decide)
    (fun q h1 h2 => absurd (Nat.lt_of_lt_of_le h1 (Nat.lt_succ_iff.mp h2)) (Nat.lt_irrefl 3))

lemma bool_eq_false {x : Bool} (h : ¬ x = true) : x = false := by
  cases x
  · rfl
  · exact absurd rfl h

lemma all_lines_false {b : List Tile}
    (h1 : ¬ is_winning_line (get_row b 0) = true) (h2 : ¬ is_winning_line (get_row b 1) = true)
    (h3 : ¬ is_winning_line (get_row b 2) = true) (h4 : ¬ is_winning_line (get_row b 3) = true)
    (h5 : ¬ is_winning_line (get_col b 0) = true) (h6 : ¬ is_winning_line (get_col b 1) = true)
    (h7 : ¬ is_winning_line (get_col b 2) = true) (h8 : ¬ is_winning_line (get_col b 3) = true)
    (h9 : ¬ is_winning_line (diag1 b) = true) (h10 : ¬ is_winning_line (diag2 b) = true) :
    ∀ l ∈ allLines b, is_winning_line l = false := by
  intro l hl
  simp only [allLines, List.mem_cons, List.not_mem_nil, or_false] at hl
  rcases hl with rfl | rfl | rfl | rfl | rfl | rfl | rfl | rfl | rfl | rfl <;>
    exact bool_eq_false (by assumption)

lemma check_branch_win {b line : List Tile}
    (hmem : line ∈ allLines b) (hwin : is_winning_line line = true) :
    ((Except.ok (some (line.getD 0 Tile.Empty)) : Except Unit (Option Tile)) = .error () ↔
      ((∀ l ∈ allLines b, is_winning_line l = false) ∧ Tile.Empty ∉ b)) ∧
    ((∃ l ∈ allLines b, is_winning_line l = true) →
      ∃ w, (Except.ok (some (line.getD 0 Tile.Empty)) : Except Unit (Option Tile))
          = .ok (some w) ∧
        ∃ l ∈ allLines b, is_winning_line l = true ∧ l.getD 0 Tile.Empty = w) ∧
    ((∀ l ∈ allLines b, is_winning_line l = false) → Tile.Empty ∈ b →
      (Except.ok (some (line.getD 0 Tile.Empty)) : Except Unit (Option Tile)) = .ok none) := by
  refine ⟨?_, ?_, ?_⟩
  · refine iff_of_false (by simp) ?_
    rintro ⟨hall, -⟩
    rw [hall line hmem] at hwin
    exact absurd hwin (by simp)
  · intro _
    exact ⟨line.getD 0 Tile.Empty, rfl, line, hmem, hwin, rfl⟩
  · intro hall _
    rw [hall line hmem] at hwin
    exact absurd hwin (by simp)

/-- C7: the outcome is Draw exactly when none of the four rows, four
columns and two diagonals is a winning line and no Empty cell remains; any
winning line makes the outcome a win for the player of a winning line, full
board or not, so a win takes precedence over a draw; and with no winning
line but a remaining Empty cell the game is still in progress. -/
theorem check_outcome_spec (b : List Tile) :
    (check_for_winner b = .error () ↔
      ((∀ l ∈ allLines b, is_winning_line l = false) ∧ Tile.Empty ∉ b)) ∧
    ((∃ l ∈ allLines b, is_winning_line l = true) →
      ∃ w, check_for_winner b = .ok (some w) ∧
        ∃ l ∈ allLines b, is_winning_line l = true ∧ l.getD 0 Tile.Empty = w) ∧
    ((∀ l ∈ allLines b, is_winning_line l = false) → Tile.Empty ∈ b →
      check_for_winner b = .ok none) := by
  unfold check_for_winner
  by_cases h1 : is_winning_line (get_row b 0) = true
  · rw [if_pos h1]
    exact check_branch_win (by simp [allLines]) h1
  rw [if_neg h1]
  by_cases h2 : is_winning_line (get_row b 1) = true
  · rw [if_pos h2]
    exact check_branch_win (by simp [allLines]) h2
  rw [if_neg h2]
  by_cases h3 : is_winning_line (get_row b 2) = true
  · rw [if_pos h3]
    exact check_branch_win (by simp [allLines]) h3
  rw [if_neg h3]
  by_cases h4 : is_winning_line (get_row b 3) = true
  · rw [if_pos h4]
    exact check_branch_win (by simp [allLines]) h4
  rw [if_neg h4]
  by_cases h5 : is_winning_line (get_col b 0) = true
  · rw [if_pos h5]
    exact check_branch_win (by simp [allLines]) h5
  rw [if_neg h5]
  by_cases h6 : is_winning_line (get_col b 1) = true
  · rw [if_pos h6]
    exact check_branch_win (by simp [allLines]) h6
  rw [if_neg h6]
  by_cases h7 : is_winning_line (get_col b 2) = true
  · rw [if_pos h7]
    exact check_branch_win (by simp [allLines]) h7
  rw [if_neg h7]
  by_cases h8 : is_winning_line (get_col b 3) = true
  · rw [if_pos h8]
    exact check_branch_win (by simp [allLines]) h8
  rw [if_neg h8]
  by_cases h9 : is_winning_line (diag1 b) = true
  · rw [if_pos h9]
    exact check_branch_win (by simp [allLines]) h9
  rw [if_neg h9]
  by_cases h10 : is_winning_line (diag2 b) = true
  · rw [if_pos h10]
    exact check_branch_win (by simp [allLines]) h10
  rw [if_neg h10]
  have hall := all_lines_false h1 h2 h3 h4 h5 h6 h7 h8 h9 h10
  by_cases h11 : ¬ Tile.Empty ∈ b
  · rw [if_pos h11]
    refine ⟨iff_of_true rfl ⟨hall, h11⟩, ?_, ?_⟩
    · rintro ⟨l, hl, hw⟩
      rw [hall l hl] at hw
      exact absurd hw (by simp)
    · intro _ hEmp
      exact absurd hEmp h11
  · rw [if_neg h11]
    refine ⟨iff_of_false (by simp) ?_, ?_, fun _ _ => rfl⟩
    · rintro ⟨-, hnem⟩
      exact absurd (not_not.mp h11) hnem
    · rintro ⟨l, hl, hw⟩
      rw [hall l hl] at hw
      exact absurd hw (by simp)

/-- C5 counterexample: a move that fills the last Empty cell and produces a
draw is answered 200 with the render, not 503; the post-move terminal check
runs on the previous word, which a successful move never leaves terminal. -/
theorem place_draw_after_move_cex :
    place "milk" (some 1)
        (Board.encode
          [Tile.Cookie, Tile.Milk, Tile.Cookie, Tile.Milk,
           Tile.Cookie, Tile.Milk, Tile.Cookie, Tile.Milk,
           Tile.Milk, Tile.Cookie, Tile.Milk, Tile.Cookie,
           Tile.Empty, Tile.Cookie, Tile.Milk, Tile.Cookie])
      = some (.okRender, Board.encode
          [Tile.Cookie, Tile.Milk, Tile.Cookie, Tile.Milk,
           Tile.Cookie, Tile.Milk, Tile.Cookie, Tile.Milk,
           Tile.Milk, Tile.Cookie, Tile.Milk, Tile.Cookie,
           Tile.Milk, Tile.Cookie, Tile.Milk, Tile.Cookie]) ∧
    check_for_winner
        [Tile.Cookie, Tile.Milk, Tile.Cookie, Tile.Milk,
         Tile.Cookie, Tile.Milk, Tile.Cookie, Tile.Milk,
         Tile.Milk, Tile.Cookie, Tile.Milk, Tile.Cookie,
         Tile.Milk, Tile.Cookie, Tile.Milk, Tile.Cookie] = .error () := by
  refine ⟨by decide, rfl⟩

/-- C5 (amended): an invalid player token or a column token that does not
parse into 1..4 yields 400 with the board untouched; a board already Won or
Draw yields 503 with the render; a full target column yields 503 with no
body and the board unchanged; and an applied move always yields 200 with
the render, even when it produces a Draw, because the post-CAS terminal
check re-examines the previous word returned by fetch_update, and that
board is never terminal when the push succeeded. -/
theorem place_spec (team : String) (column : Option Nat) (w : Nat) (b : List Tile)
    (hb : Board.decode w = some b) :
    ((parseTeam team = none ∨ column = none ∨
        (∃ c, column = some c ∧ (c < 1 ∨ 4 < c))) →
      place team column w = some (.badRequest, w)) ∧
    (∀ tt c, parseTeam team = some tt → column = some c → 1 ≤ c → c ≤ 4 →
      ((check_for_winner b = .error () ∨ (∃ u, check_for_winner b = .ok (some u))) →
        place team column w = some (.unavailableRender, w)) ∧
      (check_for_winner b = .ok none → push_item b (c - 1) tt = none →
        place team column w = some (.unavailableNoBody, w)) ∧
      (∀ nb, check_for_winner b = .ok none → push_item b (c - 1) tt = some nb →
        place team column w = some (.okRender, Board.encode nb))) := by
  constructor
  · rintro (hteam | hcol | ⟨c, rfl, hc⟩)
    · simp [place, hteam]
    · cases hpt : parseTeam team <;> simp [place, hpt, hcol]
    · cases hpt : parseTeam team
      · simp [place, hpt]
      · rcases hc with hc | hc
        · simp only [place, hpt]
          rw [if_pos hc]
        · simp only [place, hpt]
          rw [if_neg (by omega), if_pos (by omega)]
  · intro tt c hpt hcol h1c hc4
    subst hcol
    refine ⟨?_, ?_, ?_⟩
    · rintro (herr | ⟨u, hok⟩)
      · simp [place, hpt, hb, herr, show ¬ c < 1 by omega, show ¬ 4 ≤ c - 1 by omega]
      · simp [place, hpt, hb, hok, show ¬ c < 1 by omega, show ¬ 4 ≤ c - 1 by omega]
    · intro hprog hpush
      simp [place, hpt, hb, hprog, hpush,
        show ¬ c < 1 by omega, show ¬ 4 ≤ c - 1 by omega]
    · intro nb hprog hpush
      simp [place, hpt, hb, hprog, hpush,
        show ¬ c < 1 by omega, show ¬ 4 ≤ c - 1 by omega]

theorem place_spec_witness :
    place "cookie" (some 1) 0 = some (.okRender,
      Board.encode ((List.replicate 16 Tile.Empty).set 12 Tile.Cookie)) :=
  ((place_spec "cookie" (some 1) 0 (List.replicate 16 Tile.Empty) (by decide)).2
      Tile.Cookie 1 (by decide) rfl (by decide) (by decide)).2.2
    ((List.replicate 16 Tile.Empty).set 12 Tile.Cookie) rfl (by decide)

end CCH24
